import Mathlib

/-!
Verification of the goutil repository against its specification.

The development shallowly embeds the two source files:

* `internal/gendoc/main.go` — the documentation generator: file filtering,
  regex-based signature collection with package sectioning, doc-fragment
  loading with language fallback, and top-level template substitution.
* `envutil/info.go` (which also carries the `timex` package) — terminal
  color-tier detection and the `TimeX` time wrapper.

Strings are modelled by Lean `String` (a wrapper around `List Char`); all
helper operations are written structurally over `String.data` so concrete
claims evaluate by `decide`.  The process environment, the filesystem and
command-line options are passed explicitly as a record of functions.
-/

/-! ## Generic string helpers (structural, decide-friendly) -/

/-- Go `strings.HasSuffix`. -/
def hasSuffix (s suffix : String) : Bool :=
  suffix.data.isSuffixOf s.data

/-- Prefix test on character lists (structural on the first argument, so it
reduces when the candidate prefix is a literal). -/
def isPfx : List Char → List Char → Bool
  | [], _ => true
  | _ :: _, [] => false
  | a :: as, b :: bs => (a = b) && isPfx as bs

/-- Substring test on character lists, the semantics of `strings.Contains`. -/
def hasSubstr : List Char → List Char → Bool
  | [], sub => sub.isEmpty
  | c :: t, sub => isPfx sub (c :: t) || hasSubstr t sub

/-- Go `strings.Contains`. -/
def strContains (s sub : String) : Bool :=
  hasSubstr s.data sub.data

/-- Membership of a string in a list of strings (`arrutil.StringsHas`, map-key lookup). -/
def memStr (x : String) : List String → Bool
  | [] => false
  | y :: t => (if x = y then true else memStr x t)

/-- Concatenation of a list of strings. -/
def joinStr : List String → String
  | [] => ""
  | s :: t => s ++ joinStr t

/-! ## envutil/info.go — color support detection

`os.Getenv` is modelled by an explicit environment `String → String`; a
variable that is unset reads as the empty string, exactly as in Go. -/

/-- Source: `specialColorTerms` (map with the single key "alacritty"). -/
def specialColorTerms : List String := ["alacritty"]

/-- Source: `IsSupportTrueColor` — `strings.Contains(os.Getenv("COLORTERM"), "truecolor")`. -/
def IsSupportTrueColor (env : String → String) : Bool :=
  strContains (env "COLORTERM") "truecolor"

/-- Source: `IsSupport256Color` — `TERM` contains "256color", else fall through
to `IsSupportTrueColor`. -/
def IsSupport256Color (env : String → String) : Bool :=
  let supported := strContains (env "TERM") "256color"
  if !supported then IsSupportTrueColor env else supported

/-- Source: `IsSupportColor` — checks in order: `TERM` contains "xterm"; `TERM`
is a special color term; `ConEmuANSI=ON`; `ANSICON` non-empty; else fall
through to `IsSupport256Color`. -/
def IsSupportColor (env : String → String) : Bool :=
  let envTerm := env "TERM"
  if strContains envTerm "xterm" then true
  else if memStr envTerm specialColorTerms then true
  else if env "ConEmuANSI" = "ON" then true
  else if !(env "ANSICON" = "") then true
  else IsSupport256Color env

/-! ## timex — the TimeX wrapper

`time.Time` is modelled as an integer count of nanoseconds since the Unix
epoch; the location is modelled as fixed UTC (no claim depends on time
zones).  Calendar conversion uses the standard proleptic-Gregorian
civil-date algorithms, which is what Go's `time` package computes for UTC.
Because the claims under test are frame/effect properties (the receiver is
never mutated), every Go pointer-receiver method is embedded as a function
returning a pair: the method's result together with the receiver's
post-state.  A faithful translation writes every assignment to the
receiver's fields into the post-state; the source performs none, so each
embedded method threads the receiver through unchanged — which is exactly
what the claim asks us to check. -/

def nsPerSec : Int := 1000000000

def nsPerHour : Int := 3600 * nsPerSec

def nsPerDay : Int := 86400 * nsPerSec

/-- Source constants `OneMinSec`, `OneHourSec`, `OneDaySec`. -/
def OneMinSec : Int := 60

def OneHourSec : Int := 3600

def OneDaySec : Int := 86400

/-- Source: `DefaultLayout` template for format time. -/
def DefaultLayout : String := "2006-01-02 15:04:05"

/-- Source: `TimeX` struct — an embedded `time.Time` plus a `Layout`. -/
structure TimeX where
  time : Int
  Layout : String
deriving DecidableEq

/-- Source: `New` — wrap a `time.Time` with the default layout. -/
def TimeXNew (t : Int) : TimeX :=
  { time := t, Layout := DefaultLayout }

/-- Days-from-civil-date (proleptic Gregorian), the arithmetic behind Go's
`time.Date` for UTC. -/
def daysFromCivil (y m d : Int) : Int :=
  let y' := if m ≤ 2 then y - 1 else y
  let era := (if y' ≥ 0 then y' else y' - 399).fdiv 400
  let yoe := y' - era * 400
  let doy := (153 * (m + (if m > 2 then -3 else 9)) + 2).fdiv 5 + d - 1
  let doe := yoe * 365 + yoe.fdiv 4 - yoe.fdiv 100 + doy
  era * 146097 + doe - 719468

/-- Civil-date-from-days (proleptic Gregorian), the arithmetic behind Go's
`Time.Date` for UTC. -/
def civilFromDays (z0 : Int) : Int × Int × Int :=
  let z := z0 + 719468
  let era := z.fdiv 146097
  let doe := z - era * 146097
  let yoe := (doe - doe.fdiv 1460 + doe.fdiv 36524 - doe.fdiv 146096).fdiv 365
  let y := yoe + era * 400
  let doy := doe - (365 * yoe + yoe.fdiv 4 - yoe.fdiv 100)
  let mp := (5 * doy + 2).fdiv 153
  let d := doy - (153 * mp + 2).fdiv 5 + 1
  let m := mp + (if mp < 10 then 3 else -9)
  (y + (if m ≤ 2 then 1 else 0), m, d)

/-- Go's `time.Date(y, m, d, hh, mi, ss, ns, loc)` for UTC: normalize each
field into range exactly as Go's `norm` helper does (floored div/mod), then
assemble the nanosecond count. -/
def timeDate (y mo d hh mi ss ns : Int) : Int :=
  let y2 := y + (mo - 1).fdiv 12
  let m2 := (mo - 1).emod 12
  let ss2 := ss + ns.fdiv nsPerSec
  let ns2 := ns.emod nsPerSec
  let mi2 := mi + ss2.fdiv 60
  let ss3 := ss2.emod 60
  let hh2 := hh + mi2.fdiv 60
  let mi3 := mi2.emod 60
  let d2 := d + hh2.fdiv 24
  let hh3 := hh2.emod 24
  daysFromCivil y2 (m2 + 1) d2 * nsPerDay + (hh3 * 3600 + mi3 * 60 + ss3) * nsPerSec + ns2

/-- Go's `t.Date()`: the civil year/month/day of the instant (UTC model). -/
def TimeX.DateYMD (t : TimeX) : Int × Int × Int :=
  civilFromDays (t.time.fdiv nsPerDay)

/-- Go's `t.Hour()` (UTC model). -/
def TimeX.Hour (t : TimeX) : Int :=
  (t.time.emod nsPerDay).fdiv nsPerHour

/-- Source: `AddSeconds` — `t.Add(seconds * time.Second)` wrapped with the
default layout.  Result plus receiver post-state. -/
def TimeX.AddSeconds (t : TimeX) (seconds : Int) : TimeX × TimeX :=
  ({ time := t.time + seconds * nsPerSec, Layout := DefaultLayout }, t)

/-- Source: `AddMinutes` — `t.AddSeconds(minutes * OneMinSec)`. -/
def TimeX.AddMinutes (t : TimeX) (minutes : Int) : TimeX × TimeX :=
  t.AddSeconds (minutes * OneMinSec)

/-- Source: `AddHour` — `t.AddSeconds(hours * OneHourSec)`. -/
def TimeX.AddHour (t : TimeX) (hours : Int) : TimeX × TimeX :=
  t.AddSeconds (hours * OneHourSec)

/-- Source: `AddDay` — `t.AddSeconds(day * OneDaySec)`. -/
def TimeX.AddDay (t : TimeX) (day : Int) : TimeX × TimeX :=
  t.AddSeconds (day * OneDaySec)

/-- Source: `DayAgo` — `t.AddSeconds(-day * OneDaySec)`. -/
def TimeX.DayAgo (t : TimeX) (day : Int) : TimeX × TimeX :=
  t.AddSeconds (-day * OneDaySec)

/-- Source: `Yesterday` — `t.AddSeconds(-OneDaySec)`. -/
def TimeX.Yesterday (t : TimeX) : TimeX × TimeX :=
  t.AddSeconds (-OneDaySec)

/-- Source: `Tomorrow` — `t.AddSeconds(OneDaySec)`. -/
def TimeX.Tomorrow (t : TimeX) : TimeX × TimeX :=
  t.AddSeconds OneDaySec

/-- Source: `DayAfter` — alias of `AddDay`. -/
def TimeX.DayAfter (t : TimeX) (day : Int) : TimeX × TimeX :=
  t.AddDay day

/-- Source: `HourStart` — `time.Date(y, m, d, t.Hour(), 0, 0, 0, loc)` wrapped by `New`. -/
def TimeX.HourStart (t : TimeX) : TimeX × TimeX :=
  match t.DateYMD with
  | (y, m, d) => (TimeXNew (timeDate y m d t.Hour 0 0 0), t)

/-- Source: `HourEnd` — `time.Date(y, m, d, t.Hour(), 59, 59, 999999999, loc)`. -/
def TimeX.HourEnd (t : TimeX) : TimeX × TimeX :=
  match t.DateYMD with
  | (y, m, d) => (TimeXNew (timeDate y m d t.Hour 59 59 999999999), t)

/-- Source: `DayStart` — `time.Date(y, m, d, 0, 0, 0, 0, loc)`. -/
def TimeX.DayStart (t : TimeX) : TimeX × TimeX :=
  match t.DateYMD with
  | (y, m, d) => (TimeXNew (timeDate y m d 0 0 0 0), t)

/-- Source: `DayEnd` — `time.Date(y, m, d, 23, 59, 59, 999999999, loc)`. -/
def TimeX.DayEnd (t : TimeX) : TimeX × TimeX :=
  match t.DateYMD with
  | (y, m, d) => (TimeXNew (timeDate y m d 23 59 59 999999999), t)

/-- Source: `ChangeHMS` — `time.Date(y, m, d, hour, min, sec, 999999999, loc)`. -/
def TimeX.ChangeHMS (t : TimeX) (hour mn sec : Int) : TimeX × TimeX :=
  match t.DateYMD with
  | (y, m, d) => (TimeXNew (timeDate y m d hour mn sec 999999999), t)

/-! ## The regular-expression engine

`internal/gendoc/main.go` matches `func [A-Z]\w+\(.*\).*` with
`regexp.FindAllString`.  Go's `regexp` package implements leftmost-first
("Perl") semantics: the match starting earliest wins, and among matches at
the same start the one a backtracking engine finds first (greedy
quantifiers try the longest repetition first) wins.  The pattern only
repeats single-character classes, so the engine below supports literals,
character classes, concatenation and greedy star/plus of a class, in
continuation-passing style with backtracking — which realizes exactly the
leftmost-first, greedy semantics. -/

inductive RE : Type where
  | lit : Char → RE
  | cls : (Char → Bool) → RE
  | seq : RE → RE → RE
  | starC : (Char → Bool) → RE
  | plusC : (Char → Bool) → RE

/-- Greedy star of a character class with backtracking: try consuming one
more matching character first, fall back to the continuation. -/
def starMatch (p : Char → Bool) : List Char → (List Char → Option (List Char)) → Option (List Char)
  | [], k => k []
  | c :: rest, k =>
    if p c then
      match starMatch p rest k with
      | some r => some r
      | none => k (c :: rest)
    else k (c :: rest)

/-- Backtracking matcher in continuation-passing style: `reMatch r s k`
matches `r` against a prefix of `s` and hands the remaining suffix to `k`. -/
def reMatch : RE → List Char → (List Char → Option (List Char)) → Option (List Char)
  | .lit a, s, k =>
    match s with
    | [] => none
    | c :: rest => if c = a then k rest else none
  | .cls p, s, k =>
    match s with
    | [] => none
    | c :: rest => if p c then k rest else none
  | .seq r1 r2, s, k => reMatch r1 s (fun s2 => reMatch r2 s2 k)
  | .starC p, s, k => starMatch p s k
  | .plusC p, s, k =>
    match s with
    | [] => none
    | c :: rest => if p c then starMatch p rest k else none

/-- Class `[A-Z]` (ASCII, as in Go regexp without Unicode classes). -/
def isUpperAZ (c : Char) : Bool :=
  65 ≤ c.toNat && c.toNat ≤ 90

/-- Class `\w` = `[0-9A-Za-z_]` in Go regexp. -/
def isWordCh (c : Char) : Bool :=
  (48 ≤ c.toNat && c.toNat ≤ 57) || (65 ≤ c.toNat && c.toNat ≤ 90) ||
    (97 ≤ c.toNat && c.toNat ≤ 122) || c.toNat = 95

/-- Class `.` — any character except newline (Go regexp default). -/
def isDotCh (c : Char) : Bool :=
  !(c = '\n')

/-- The source pattern `func [A-Z]\w+\(.*\).*`. -/
def funcSigRE : RE :=
  .seq (.lit 'f') (.seq (.lit 'u') (.seq (.lit 'n') (.seq (.lit 'c') (.seq (.lit ' ')
    (.seq (.cls isUpperAZ) (.seq (.plusC isWordCh) (.seq (.lit '(')
      (.seq (.starC isDotCh) (.seq (.lit ')') (.starC isDotCh))))))))))

/-- Go `Regexp.FindAllString(text, -1)`: scan left to right; at each position
take the backtracking match if any, record the matched span and continue
after it (advancing one character past an empty match, as Go does); else
advance one character. -/
def findAllAux (r : RE) : Nat → List Char → List (List Char)
  | 0, _ => []
  | fuel + 1, s =>
    match reMatch r s some with
    | some rem =>
      if s.length - rem.length = 0 then
        if rem.isEmpty then [s.take (s.length - rem.length)]
        else s.take (s.length - rem.length) :: findAllAux r fuel (rem.drop 1)
      else s.take (s.length - rem.length) :: findAllAux r fuel rem
    | none =>
      if s.isEmpty then [] else findAllAux r fuel (s.drop 1)

/-- All matches of the source pattern in a file's text
(`reg.FindAllString(string(text), -1)`). -/
def sigMatches (text : String) : List String :=
  (findAllAux funcSigRE (text.data.length + 1) text.data).map String.mk

/-! ## internal/gendoc/main.go — the documentation generator

The process environment is a record: `fsRead` models
`fsutil.ReadExistFile` (a missing or unreadable file reads as the empty
string), `readFile` models `fsutil.MustReadFile` for the discovered source
files, and `lang`/`tplDir` are the command-line options.  The collected
`pkgNames` map feeds only the console dump at the end of `main`, not the
output buffer, and is therefore not part of the state. -/

structure GenEnv where
  fsRead : String → String
  readFile : String → String
  lang : String
  tplDir : String

/-- Source: the `hidden` package list. -/
def hiddenPkgs : List String := ["netutil", "numutil", "internal"]

/-- Source: the `nameMap` display-name overrides (lookup table). -/
def nameMap : List (String × String) :=
  [("arr", "array/Slice"), ("str", "string"), ("sys", "system"),
   ("math", "math/Number"), ("fs", "fileSystem"), ("fmt", "formatting"),
   ("test", "testing"), ("dump", "dump"), ("structs", "struct"),
   ("json", "JSON"), ("cli", "CLI"), ("env", "ENV"), ("std", "standard")]

/-- Association-list lookup (a Go map read). -/
def lookupAssoc (k : String) : List (String × String) → Option String
  | [] => none
  | (k', v) :: t => if k = k' then some v else lookupAssoc k t

/-- Source: `partDocTplS = "part-%s-s%s.md"` applied via `fmt.Sprintf`. -/
def partDocTplS (pkgName lang : String) : String :=
  "part-" ++ pkgName ++ "-s" ++ lang ++ ".md"

/-- Source: `partDocTplE = "part-%s%s.md"` applied via `fmt.Sprintf`. -/
def partDocTplE (pkgName lang : String) : String :=
  "part-" ++ pkgName ++ lang ++ ".md"

/-- Source: `doWriteDoc2buf` — read `tplDir + "/" + filename` with
`ReadExistFile`; if the contents are non-empty, append them with a trailing
newline (`fmt.Fprintln`) and report success.  Returns the appended text and
the success flag. -/
def doWriteDoc2buf (env : GenEnv) (filename : String) : String × Bool :=
  let partBody := env.fsRead (env.tplDir ++ "/" ++ filename)
  if partBody.data.length > 0 then (partBody ++ "\n", true) else ("", false)

/-- Source: `bufWriteDoc` — build the language-suffixed fragment filename
(empty suffix for "en", `"." + lang` otherwise), try it, and on failure
retry with the default-language (empty-suffix) filename.  Returns the text
appended to the buffer. -/
def bufWriteDoc (env : GenEnv) (tpl : String → String → String) (pkgName : String) : String :=
  let lang := if env.lang = "en" then "" else "." ++ env.lang
  let first := doWriteDoc2buf env (tpl pkgName lang)
  if first.2 then first.1 else (doWriteDoc2buf env (tpl pkgName "")).1

/-- Subdirectory of a path: `filename[:strings.IndexRune(filename, '/')]`.
Faithful for every path that contains a `'/'` (every `./*/*.go` glob match
does; on a slash-free path the Go original panics on the `-1` slice bound). -/
def dirOf (f : String) : String :=
  String.mk (f.data.takeWhile (fun c => !(c = '/')))

/-- Source: `strings.TrimRight(line, "{ ")` — strip trailing braces and spaces. -/
def trimRightSet (s : String) : String :=
  String.mk ((s.data.reverse.dropWhile (fun c => c = '\x7b' || c = ' ')).reverse)

/-- External library `strutil.UpperFirst`: upper-case a leading ASCII
lowercase letter. -/
def upperFirst (s : String) : String :=
  match s.data with
  | [] => s
  | c :: rest =>
    if 97 ≤ c.toNat && c.toNat ≤ 122 then String.mk (Char.ofNat (c.toNat - 32) :: rest) else s

/-- The signature lines a single file contributes: `reg.FindAllString` on
the file's contents; if non-empty, a `// source at` line followed by each
match trimmed of trailing `"{ "` characters, each written with `bufWriteln`. -/
def fileLines (env : GenEnv) (filename : String) : String :=
  let lines := sigMatches (env.readFile filename)
  if lines.isEmpty then ""
  else
    "// source at " ++ filename ++ "\n" ++
      joinStr (lines.map (fun l => trimRightSet l ++ "\n"))

/-- The display name of a package directory: strip a trailing "util", then
apply the `nameMap` override if present. -/
def displayName (dir : String) : String :=
  let name := if hasSuffix dir "util" then String.mk (dir.data.take (dir.data.length - 4)) else dir
  match lookupAssoc name nameMap with
  | some t => t
  | none => name

/-- Everything written when a new package section opens: the heading line
(`bufWriteln "\n###" UpperFirst(name)`), the package-path annotation
(`bufWritef`), the "start" doc fragment, and the opening code fence. -/
def sectionOpen (env : GenEnv) (basePkg dir : String) : String :=
  let name := displayName dir
  "\n### " ++ upperFirst name ++ "\n" ++
    ("\n> Package `" ++ (basePkg ++ "/" ++ dir) ++ "`\n\n") ++
    bufWriteDoc env partDocTplS name ++ "```go\n"

/-- Loop state of `collectPgkFunc`: the output buffer, the keys of the
`pkgFuncs` map in insertion order (only membership and emptiness of that
map are ever observed), and the `dirname` variable. -/
structure CState where
  buf : String
  seen : List String
  dirname : String

/-- One iteration of the `collectPgkFunc` loop, filters included: skip
`_test.go` and `_windows.go` files and hidden subdirectories; open a new
section when the package path is not yet a key of `pkgFuncs` (closing the
previous section's fence and appending its "end" fragment first); then
append the file's signature lines. -/
def collectStep (env : GenEnv) (basePkg : String) (st : CState) (filename : String) : CState :=
  if hasSuffix filename "_test.go" then st
  else if hasSuffix filename "_windows.go" then st
  else
    let dir := dirOf filename
    if memStr dir hiddenPkgs then st
    else
      let pkgPath := basePkg ++ "/" ++ dir
      let st1 :=
        if memStr pkgPath st.seen then st
        else
          { buf := st.buf ++
              (if st.seen.isEmpty then "" else "```\n" ++ bufWriteDoc env partDocTplE st.dirname) ++
              sectionOpen env basePkg dir
            seen := st.seen ++ [pkgPath]
            dirname := dir }
      { st1 with buf := st1.buf ++ fileLines env filename }

/-- Source: `collectPgkFunc` — fold the loop over the discovered files and
flush the final open section (close the fence, append its "end" fragment)
when any section was opened. -/
def collectPgkFunc (env : GenEnv) (basePkg : String) (ms : List String) : String :=
  let st := ms.foldl (collectStep env basePkg) ⟨"", [], ""⟩
  st.buf ++ (if st.seen.isEmpty then "" else "```\n" ++ bufWriteDoc env partDocTplE st.dirname)

/-- Source: the placeholder token `{{pgkFuncs}}` replaced in `main`. -/
def placeholder : String := "\x7b\x7bpgkFuncs\x7d\x7d"

/-- Go `strings.Replace(s, old, new, 1)`: replace the first occurrence of
`old` (scan left to right). -/
def replace1Aux (old new : List Char) : List Char → List Char
  | [] => []
  | c :: t =>
    if isPfx old (c :: t) then new ++ (c :: t).drop old.length
    else c :: replace1Aux old new t

/-- Go `strings.Replace` with count 1, on strings. -/
def strReplace1 (s old new : String) : String :=
  String.mk (replace1Aux old.data new.data s.data)

/-- The output-writing step of `main`: if top-level template content was
loaded (`len(tplBody) > 0`), substitute the assembled buffer for the
placeholder token; otherwise write the buffer directly. -/
def mainOutput (tplBody buf : String) : String :=
  if tplBody.data.length > 0 then strReplace1 tplBody placeholder buf else buf

/-! ## Compositional (specification-side) view of the collector

`renderSeg` below is written from the specification's words: a section is
one heading, one package annotation, one "start" fragment, one opened
fence, the content of all the section's files, one closed fence, one "end"
fragment.  `segments` groups the (already filtered) files into sections the
way the source does: a file opens a fresh section exactly when its package
key is not yet a key of the `pkgFuncs` map.  The refinement theorem proves
the imperative loop equal to this compositional rendering. -/

/-- The three filter conditions of the collector loop, as one predicate. -/
def keepFile (f : String) : Bool :=
  !hasSuffix f "_test.go" && !hasSuffix f "_windows.go" && !memStr (dirOf f) hiddenPkgs

/-- The package key of a file: `basePkg + "/" + dir`. -/
def pkgKey (basePkg f : String) : String :=
  basePkg ++ "/" ++ dirOf f

/-- Group files into sections: a file with an unseen package key closes the
current section and opens a new one; any other file joins the current
section (even when its key is not the current section's key). -/
def segmentsAux (basePkg : String) : List String → List String → List String → List (List String)
  | _, cur, [] => [cur]
  | seen, cur, f :: fs =>
    if memStr (pkgKey basePkg f) seen then segmentsAux basePkg seen (cur ++ [f]) fs
    else cur :: segmentsAux basePkg (seen ++ [pkgKey basePkg f]) [f] fs

def segments (basePkg : String) : List String → List (List String)
  | [] => []
  | f :: fs => segmentsAux basePkg [pkgKey basePkg f] [f] fs

/-- One rendered section: header material and opened fence, the files'
signature lines, the closing fence, the "end" fragment of the section's
opening directory. -/
def renderSeg (env : GenEnv) (basePkg : String) (seg : List String) : String :=
  match seg with
  | [] => ""
  | f :: _ =>
    sectionOpen env basePkg (dirOf f) ++ joinStr (seg.map (fileLines env)) ++
      ("```\n" ++ bufWriteDoc env partDocTplE (dirOf f))

/-- The text still to be produced when a section is open: remaining files
processed in order, plus the final flush (close the fence, append the open
section's "end" fragment). -/
def restRun (env : GenEnv) (basePkg : String) : List String → List String → String → String
  | [], _, dn => "```\n" ++ bufWriteDoc env partDocTplE dn
  | f :: fs, seen, dn =>
    if memStr (pkgKey basePkg f) seen then
      fileLines env f ++ restRun env basePkg fs seen dn
    else
      ("```\n" ++ bufWriteDoc env partDocTplE dn) ++
        (sectionOpen env basePkg (dirOf f) ++
          (fileLines env f ++ restRun env basePkg fs (seen ++ [pkgKey basePkg f]) (dirOf f)))

/-- The loop body after its three `continue` filters (what runs for a kept file). -/
def collectStepKept (env : GenEnv) (basePkg : String) (st : CState) (filename : String) : CState :=
  let dir := dirOf filename
  let pkgPath := basePkg ++ "/" ++ dir
  let st1 :=
    if memStr pkgPath st.seen then st
    else
      { buf := st.buf ++
          (if st.seen.isEmpty then "" else "```\n" ++ bufWriteDoc env partDocTplE st.dirname) ++
          sectionOpen env basePkg dir
        seen := st.seen ++ [pkgPath]
        dirname := dir }
  { st1 with buf := st1.buf ++ fileLines env filename }

/-- The final flush of `collectPgkFunc` applied to a loop state. -/
def finishOf (env : GenEnv) (st : CState) : String :=
  st.buf ++ (if st.seen.isEmpty then "" else "```\n" ++ bufWriteDoc env partDocTplE st.dirname)

/-! ## Observations on the generated buffer (for stating the claims) -/

/-- Split a character list at newlines (the final fragment is the text after
the last newline, possibly empty). -/
def splitLinesL : List Char → List (List Char)
  | [] => [[]]
  | c :: cs =>
    if c = '\n' then [] :: splitLinesL cs
    else
      match splitLinesL cs with
      | [] => [[c]]
      | l :: ls => (c :: l) :: ls

/-- The section-header lines of a generated buffer (lines starting "### "). -/
def headerLinesOf (s : String) : List String :=
  ((splitLinesL s.data).filter (fun l => isPfx ("### ".data) l)).map String.mk

/-- How many lines of the buffer equal the given text exactly. -/
def countLineEq (s target : String) : Nat :=
  ((splitLinesL s.data).filter (fun l => l = target.data)).length

/-- The shape every raw match of the signature pattern necessarily has:
`"func "` followed by an uppercase letter and at least one further word
character — the matched function name has at least two characters. -/
def sigShape (m : String) : Prop :=
  ∃ c₅ c₆ t, m.data = 'f' :: 'u' :: 'n' :: 'c' :: ' ' :: c₅ :: c₆ :: t ∧
    isUpperAZ c₅ = true ∧ isWordCh c₆ = true

/-! ## Concrete test fixtures (used by counterexamples and witnesses) -/

/-- Base package path used by `main`. -/
def basePkgGoutil : String := "github.com/gookit/goutil"

/-- Fixture for the `[A, A, B, B, A]` discovery order of claim C1: five
files under directories alpha, alpha, beta, beta, alpha; the template
directory has no fragment files; the trailing alpha file defines one
exported function so we can see which section its line lands in. -/
def envC1 : GenEnv :=
  { fsRead := fun _ => ""
    readFile := fun f => if f = "alpha/a3.go" then "func Tail(x int) \x7b\n" else ""
    lang := "en"
    tplDir := "./tpl" }

def msC1 : List String :=
  ["alpha/a1.go", "alpha/a2.go", "beta/b1.go", "beta/b2.go", "alpha/a3.go"]

/-- Fixture for claim C2: one file whose text holds an exported and an
unexported function declaration. -/
def envC2 : GenEnv :=
  { fsRead := fun _ => ""
    readFile := fun f =>
      if f = "strutil/x.go" then "func Foo(a int) string \x7b\nfunc bar(a int) \x7b\n" else ""
    lang := "en"
    tplDir := "./tpl" }

/-- Fixture for claim C3's witness: one test file, one windows file, one
hidden-package file, one kept file. -/
def msC3 : List String :=
  ["strutil/a_test.go", "sysutil/sysutil_windows.go", "internal/c.go", "maputil/m.go"]

def envC3 : GenEnv :=
  { fsRead := fun _ => "", readFile := fun _ => "", lang := "en", tplDir := "./tpl" }

/-- Fixture for claim C6's witness: language zh-CN requested, only the
default-language ("en", empty suffix) fragment files exist. -/
def envC6 : GenEnv :=
  { fsRead := fun p =>
      if p = "./tpl/part-arr-s.md" then "START-DOC"
      else if p = "./tpl/part-arrutil.md" then "END-DOC"
      else ""
    readFile := fun _ => ""
    lang := "zh-CN"
    tplDir := "./tpl" }

/-- Fixture for claim C7's witness: no fragment file exists at all; a single
package with one exported function. -/
def envC7 : GenEnv :=
  { fsRead := fun _ => ""
    readFile := fun f => if f = "maputil/m.go" then "func Keys(m any) \x7b\n" else ""
    lang := "en"
    tplDir := "./tpl" }

def msC7 : List String := ["maputil/m.go"]

/-- Fixture for claim C8's witness: only COLORTERM=truecolor is set. -/
def envC8 : String → String :=
  fun v => if v = "COLORTERM" then "truecolor" else ""

/-! ## Helper lemmas: string append -/

theorem strApp_assoc (a b c : String) : a ++ b ++ c = a ++ (b ++ c) := by
  cases a with
  | mk la =>
    cases b with
    | mk lb =>
      cases c with
      | mk lc => exact congrArg String.mk (List.append_assoc la lb lc)

theorem strApp_empty (a : String) : a ++ "" = a := by
  cases a with
  | mk la => exact congrArg String.mk (List.append_nil la)

theorem strEmpty_app (a : String) : "" ++ a = a := by
  cases a with
  | mk la => exact congrArg String.mk (List.nil_append la)

theorem strData_append (a b : String) : (a ++ b).data = a.data ++ b.data := by
  cases a; cases b; rfl

theorem joinStr_append (l₁ l₂ : List String) :
    joinStr (l₁ ++ l₂) = joinStr l₁ ++ joinStr l₂ := by
  induction l₁ with
  | nil => simp [joinStr, strEmpty_app]
  | cons s t ih => simp [joinStr, ih, strApp_assoc]

theorem isEmpty_false_of_ne {α : Type} {l : List α} (h : l ≠ []) : l.isEmpty = false := by
  cases l with
  | nil => exact absurd rfl h
  | cons a t => rfl

/-! ## Helper lemmas: substring containment -/

theorem isPfx_self_append (l r : List Char) : isPfx l (l ++ r) = true := by
  induction l with
  | nil => rfl
  | cons c t ih => simp [isPfx, ih]

theorem isPfx_append_mono {sub l : List Char} (r : List Char)
    (h : isPfx sub l = true) : isPfx sub (l ++ r) = true := by
  induction sub generalizing l with
  | nil => rfl
  | cons c t ih =>
    cases l with
    | nil => simp [isPfx] at h
    | cons c' l' =>
      simp only [List.cons_append, isPfx, Bool.and_eq_true] at h ⊢
      exact ⟨h.1, ih h.2⟩

theorem hasSubstr_self_append (sub r : List Char) : hasSubstr (sub ++ r) sub = true := by
  cases sub with
  | nil =>
    cases r with
    | nil => rfl
    | cons c t => simp [hasSubstr, isPfx]
  | cons c t =>
    have h1 : isPfx (c :: t) ((c :: t) ++ r) = true := isPfx_self_append (c :: t) r
    rw [List.cons_append] at h1
    simp [hasSubstr, h1]

theorem hasSubstr_appL {l sub : List Char} (a : List Char)
    (h : hasSubstr l sub = true) : hasSubstr (a ++ l) sub = true := by
  induction a with
  | nil => simpa using h
  | cons c t ih => simp [hasSubstr, ih]

theorem strContains_here (pre sub post : String) :
    strContains (pre ++ (sub ++ post)) sub = true := by
  show hasSubstr (pre ++ (sub ++ post)).data sub.data = true
  rw [strData_append, strData_append]
  exact hasSubstr_appL _ (hasSubstr_self_append _ _)

/-! ## Helper lemmas: the regex engine -/

theorem starMatch_le {p : Char → Bool} {k : List Char → Option (List Char)} :
    ∀ {s res}, starMatch p s k = some res →
      ∃ s', s'.length ≤ s.length ∧ k s' = some res := by
  intro s
  induction s with
  | nil => exact fun h => ⟨[], Nat.le_refl _, h⟩
  | cons c rest ih =>
    intro res h
    simp only [starMatch] at h
    by_cases hp : p c = true
    · rw [if_pos hp] at h
      cases hrec : starMatch p rest k with
      | some r =>
        rw [hrec] at h
        obtain ⟨s', hle, hk⟩ := ih hrec
        cases h
        exact ⟨s', Nat.le_succ_of_le hle, hk⟩
      | none =>
        rw [hrec] at h
        exact ⟨c :: rest, Nat.le_refl _, h⟩
    · rw [if_neg hp] at h
      exact ⟨c :: rest, Nat.le_refl _, h⟩

theorem reMatch_le : ∀ (r : RE) {s : List Char} {k : List Char → Option (List Char)} {res},
    reMatch r s k = some res → ∃ s', s'.length ≤ s.length ∧ k s' = some res := by
  intro r
  induction r with
  | lit a =>
    intro s k res h
    cases s with
    | nil => exact Option.noConfusion h
    | cons c rest =>
      simp only [reMatch] at h
      by_cases hc : c = a
      · rw [if_pos hc] at h
        exact ⟨rest, Nat.le_succ _, h⟩
      · rw [if_neg hc] at h
        exact Option.noConfusion h
  | cls p =>
    intro s k res h
    cases s with
    | nil => exact Option.noConfusion h
    | cons c rest =>
      simp only [reMatch] at h
      by_cases hp : p c = true
      · rw [if_pos hp] at h
        exact ⟨rest, Nat.le_succ _, h⟩
      · rw [if_neg hp] at h
        exact Option.noConfusion h
  | seq r1 r2 ih1 ih2 =>
    intro s k res h
    simp only [reMatch] at h
    obtain ⟨s2, h2le, h2⟩ := ih1 h
    obtain ⟨s3, h3le, h3⟩ := ih2 h2
    exact ⟨s3, Nat.le_trans h3le h2le, h3⟩
  | starC p =>
    intro s k res h
    exact starMatch_le h
  | plusC p =>
    intro s k res h
    cases s with
    | nil => exact Option.noConfusion h
    | cons c rest =>
      simp only [reMatch] at h
      by_cases hp : p c = true
      · rw [if_pos hp] at h
        obtain ⟨s', hle, hk⟩ := starMatch_le h
        exact ⟨s', Nat.le_succ_of_le hle, hk⟩
      · rw [if_neg hp] at h
        exact Option.noConfusion h

theorem reMatch_lit_inv {a : Char} {s : List Char} {k : List Char → Option (List Char)} {res}
    (h : reMatch (.lit a) s k = some res) : ∃ t, s = a :: t ∧ k t = some res := by
  cases s with
  | nil => exact Option.noConfusion h
  | cons c t =>
    simp only [reMatch] at h
    by_cases hc : c = a
    · rw [if_pos hc] at h
      exact ⟨t, by rw [hc], h⟩
    · rw [if_neg hc] at h
      exact Option.noConfusion h

theorem reMatch_cls_inv {p : Char → Bool} {s : List Char} {k : List Char → Option (List Char)} {res}
    (h : reMatch (.cls p) s k = some res) : ∃ c t, s = c :: t ∧ p c = true ∧ k t = some res := by
  cases s with
  | nil => exact Option.noConfusion h
  | cons c t =>
    simp only [reMatch] at h
    by_cases hp : p c = true
    · rw [if_pos hp] at h
      exact ⟨c, t, rfl, hp, h⟩
    · rw [if_neg hp] at h
      exact Option.noConfusion h

theorem reMatch_plus_inv {p : Char → Bool} {s : List Char} {k : List Char → Option (List Char)} {res}
    (h : reMatch (.plusC p) s k = some res) :
    ∃ c t, s = c :: t ∧ p c = true ∧ starMatch p t k = some res := by
  cases s with
  | nil => exact Option.noConfusion h
  | cons c t =>
    simp only [reMatch] at h
    by_cases hp : p c = true
    · rw [if_pos hp] at h
      exact ⟨c, t, rfl, hp, h⟩
    · rw [if_neg hp] at h
      exact Option.noConfusion h

/-- Any successful match of `funcSigRE` starts with `"func "`, an uppercase
letter and a word character, and consumes at least seven characters. -/
theorem funcSig_shape {s rem : List Char} (h : reMatch funcSigRE s some = some rem) :
    ∃ c₅ c₆ t, s = 'f' :: 'u' :: 'n' :: 'c' :: ' ' :: c₅ :: c₆ :: t ∧
      isUpperAZ c₅ = true ∧ isWordCh c₆ = true ∧ rem.length + 7 ≤ s.length := by
  obtain ⟨s1, hs1, h⟩ := reMatch_lit_inv h
  obtain ⟨s2, hs2, h⟩ := reMatch_lit_inv h
  obtain ⟨s3, hs3, h⟩ := reMatch_lit_inv h
  obtain ⟨s4, hs4, h⟩ := reMatch_lit_inv h
  obtain ⟨s5, hs5, h⟩ := reMatch_lit_inv h
  obtain ⟨c5, s6, hs6, hc5, h⟩ := reMatch_cls_inv h
  obtain ⟨c6, s7, hs7, hc6, h⟩ := reMatch_plus_inv h
  obtain ⟨s8, h8le, h⟩ := starMatch_le h
  obtain ⟨s9, h9le, h⟩ := reMatch_le _ h
  have hrem : s9 = rem := Option.some.inj h
  subst hrem
  subst hs7; subst hs6; subst hs5; subst hs4; subst hs3; subst hs2; subst hs1
  refine ⟨c5, c6, s7, rfl, hc5, hc6, ?_⟩
  simp only [List.length_cons]
  omega

/-- Unfolding equation for the scanner at a successor fuel value. -/
theorem findAllAux_succ (r : RE) (fuel : Nat) (s : List Char) :
    findAllAux r (fuel + 1) s =
      match reMatch r s some with
      | some rem =>
        if s.length - rem.length = 0 then
          if rem.isEmpty then [s.take (s.length - rem.length)]
          else s.take (s.length - rem.length) :: findAllAux r fuel (rem.drop 1)
        else s.take (s.length - rem.length) :: findAllAux r fuel rem
      | none =>
        if s.isEmpty then [] else findAllAux r fuel (s.drop 1) := rfl

/-- Every string collected by the scanning loop is a match of the pattern,
hence has the seven-character "func " prefix shape. -/
theorem findAllAux_shape : ∀ (fuel : Nat) (s m : List Char),
    m ∈ findAllAux funcSigRE fuel s →
    ∃ c₅ c₆ t, m = 'f' :: 'u' :: 'n' :: 'c' :: ' ' :: c₅ :: c₆ :: t ∧
      isUpperAZ c₅ = true ∧ isWordCh c₆ = true := by
  intro fuel
  induction fuel with
  | zero =>
    intro s m hm
    simp [findAllAux] at hm
  | succ fuel ih =>
    intro s m hm
    rw [findAllAux_succ] at hm
    split at hm
    next rem hre =>
      obtain ⟨c5, c6, t, hshape, hc5, hc6, hlen⟩ := funcSig_shape hre
      have hs7 : s.length = t.length + 7 := by rw [hshape]; simp
      have hnz : ¬ (s.length - rem.length = 0) := by omega
      rw [if_neg hnz] at hm
      rcases List.mem_cons.mp hm with hm1 | hm2
      · obtain ⟨k, hk⟩ := Nat.le.dest (show 7 ≤ s.length - rem.length by omega)
        have hk2 : s.length - rem.length = k + 7 := by omega
        refine ⟨c5, c6, t.take k, ?_, hc5, hc6⟩
        rw [hm1, hk2, hshape]
        rfl
      · exact ih rem m hm2
    next hre =>
      cases s with
      | nil => simp at hm
      | cons c rest =>
        rw [if_neg (by simp)] at hm
        exact ih rest m hm

/-! ## Helper lemmas: the collector loop refines the compositional render -/

theorem collectStep_skip {env : GenEnv} {basePkg : String} {st : CState} {f : String}
    (h : keepFile f = false) : collectStep env basePkg st f = st := by
  by_cases h1 : hasSuffix f "_test.go" = true
  · simp [collectStep, h1]
  · by_cases h2 : hasSuffix f "_windows.go" = true
    · simp [collectStep, h1, h2]
    · by_cases h3 : memStr (dirOf f) hiddenPkgs = true
      · simp [collectStep, h1, h2, h3]
      · simp [keepFile, h1, h2, h3] at h

theorem collectStep_keep {env : GenEnv} {basePkg : String} {st : CState} {f : String}
    (h : keepFile f = true) : collectStep env basePkg st f = collectStepKept env basePkg st f := by
  simp only [keepFile, Bool.and_eq_true, Bool.not_eq_true'] at h
  obtain ⟨⟨h1, h2⟩, h3⟩ := h
  simp [collectStep, collectStepKept, h1, h2, h3]

/-- Skipped files contribute nothing: the loop over the raw file list equals
the loop body over the kept files only. -/
theorem foldl_collectStep_filter (env : GenEnv) (basePkg : String) :
    ∀ (ms : List String) (st : CState),
      ms.foldl (collectStep env basePkg) st =
        (ms.filter keepFile).foldl (collectStepKept env basePkg) st := by
  intro ms
  induction ms with
  | nil => intro st; rfl
  | cons f fs ih =>
    intro st
    by_cases hf : keepFile f = true
    · rw [List.foldl_cons, List.filter_cons_of_pos hf, List.foldl_cons,
        collectStep_keep hf]
      exact ih _
    · rw [Bool.not_eq_true] at hf
      rw [List.foldl_cons, List.filter_cons_of_neg (by simp [hf]),
        collectStep_skip hf]
      exact ih _

/-- Invariant of the loop while a section is open: finishing the fold from
state `⟨B, seen, dn⟩` appends exactly `restRun` to `B`. -/
theorem foldl_kept_finish (env : GenEnv) (basePkg : String) :
    ∀ (fs : List String) (B : String) (seen : List String) (dn : String), seen ≠ [] →
      finishOf env (fs.foldl (collectStepKept env basePkg) ⟨B, seen, dn⟩) =
        B ++ restRun env basePkg fs seen dn := by
  intro fs
  induction fs with
  | nil =>
    intro B seen dn hne
    simp [finishOf, restRun, isEmpty_false_of_ne hne]
  | cons f fs ih =>
    intro B seen dn hne
    rw [List.foldl_cons]
    by_cases hmem : memStr (pkgKey basePkg f) seen = true
    · have hmem' : memStr (basePkg ++ "/" ++ dirOf f) seen = true := hmem
      have hstep : collectStepKept env basePkg ⟨B, seen, dn⟩ f =
          ⟨B ++ fileLines env f, seen, dn⟩ := by
        simp [collectStepKept, hmem']
      rw [hstep, ih _ _ _ hne]
      simp [restRun, hmem, strApp_assoc]
    · have hmem' : ¬ memStr (basePkg ++ "/" ++ dirOf f) seen = true := hmem
      have hstep : collectStepKept env basePkg ⟨B, seen, dn⟩ f =
          ⟨B ++ ("```\n" ++ bufWriteDoc env partDocTplE dn) ++ sectionOpen env basePkg (dirOf f)
              ++ fileLines env f,
            seen ++ [basePkg ++ "/" ++ dirOf f], dirOf f⟩ := by
        simp [collectStepKept, hmem', isEmpty_false_of_ne hne]
      rw [hstep, ih _ _ _ (by simp)]
      rw [restRun]
      rw [if_neg hmem]
      simp [pkgKey, strApp_assoc]

/-- The compositional render of the sections that start with a given open
section equals that section's header and files followed by `restRun`. -/
theorem segments_render (env : GenEnv) (basePkg : String) :
    ∀ (fs seen : List String) (f₀ : String) (cur : List String),
      joinStr ((segmentsAux basePkg seen (f₀ :: cur) fs).map (renderSeg env basePkg)) =
        sectionOpen env basePkg (dirOf f₀) ++
          (joinStr ((f₀ :: cur).map (fileLines env)) ++
            restRun env basePkg fs seen (dirOf f₀)) := by
  intro fs
  induction fs with
  | nil =>
    intro seen f₀ cur
    simp [segmentsAux, renderSeg, restRun, joinStr, strApp_assoc, strApp_empty]
  | cons f fs ih =>
    intro seen f₀ cur
    by_cases hmem : memStr (pkgKey basePkg f) seen = true
    · rw [segmentsAux]
      rw [if_pos hmem]
      have hcons : (f₀ :: cur) ++ [f] = f₀ :: (cur ++ [f]) := rfl
      rw [hcons, ih]
      rw [restRun, if_pos hmem]
      simp [joinStr, joinStr_append, List.map_append, strApp_assoc, strApp_empty]
    · rw [segmentsAux]
      rw [if_neg hmem]
      rw [List.map_cons, joinStr, ih]
      rw [restRun, if_neg hmem]
      simp [renderSeg, joinStr, strApp_assoc, strApp_empty]

/-- Refinement: the imperative collector equals the compositional
section-by-section rendering of the filtered input. -/
theorem collect_eq_render (env : GenEnv) (basePkg : String) (ms : List String) :
    collectPgkFunc env basePkg ms =
      joinStr ((segments basePkg (ms.filter keepFile)).map (renderSeg env basePkg)) := by
  have h0 : collectPgkFunc env basePkg ms =
      finishOf env (ms.foldl (collectStep env basePkg) ⟨"", [], ""⟩) := rfl
  rw [h0, foldl_collectStep_filter]
  cases hms : ms.filter keepFile with
  | nil =>
    simp [finishOf, segments, joinStr, List.foldl, strApp_empty]
  | cons f fs =>
    rw [List.foldl_cons]
    have hstep : collectStepKept env basePkg ⟨"", [], ""⟩ f =
        ⟨sectionOpen env basePkg (dirOf f) ++ fileLines env f,
          [basePkg ++ "/" ++ dirOf f], dirOf f⟩ := by
      simp [collectStepKept, memStr, strEmpty_app]
    rw [hstep, foldl_kept_finish env basePkg fs _ _ _ (by simp)]
    rw [segments, segments_render]
    simp [pkgKey, joinStr, strApp_assoc, strApp_empty]

/-! ## Helper lemmas: more substring tools -/

theorem hasSubstr_nil_sub (l : List Char) : hasSubstr l [] = true := by
  cases l with
  | nil => rfl
  | cons c t => simp [hasSubstr, isPfx]

theorem hasSubstr_appR {a : List Char} (b : List Char) {sub : List Char}
    (h : hasSubstr a sub = true) : hasSubstr (a ++ b) sub = true := by
  induction a with
  | nil =>
    have hsub : sub = [] := by
      cases sub with
      | nil => rfl
      | cons x xs => simp [hasSubstr, List.isEmpty] at h
    rw [hsub]
    exact hasSubstr_nil_sub _
  | cons c t ih =>
    simp only [hasSubstr, Bool.or_eq_true] at h
    rcases h with h1 | h2
    · have h1' : isPfx sub ((c :: t) ++ b) = true := isPfx_append_mono b h1
      rw [List.cons_append] at h1'
      simp [hasSubstr, h1']
    · simp [hasSubstr, ih h2]

theorem strContains_appL (a : String) {l sub : String}
    (h : strContains l sub = true) : strContains (a ++ l) sub = true := by
  show hasSubstr (a ++ l).data sub.data = true
  rw [strData_append]
  exact hasSubstr_appL _ h

theorem strContains_appR (b : String) {a sub : String}
    (h : strContains a sub = true) : strContains (a ++ b) sub = true := by
  show hasSubstr (a ++ b).data sub.data = true
  rw [strData_append]
  exact hasSubstr_appR _ h

theorem strContains_self_pre (sub post : String) : strContains (sub ++ post) sub = true := by
  show hasSubstr (sub ++ post).data sub.data = true
  rw [strData_append]
  exact hasSubstr_self_append _ _

theorem strContains_self (s : String) : strContains s s = true := by
  have h := strContains_self_pre s ""
  rwa [strApp_empty] at h

/-- Splitting a concatenation of rendered pieces at a member element. -/
theorem joinStr_mem_split {α : Type} (g : α → String) {x : α} {l : List α} (h : x ∈ l) :
    ∃ P Q, joinStr (l.map g) = P ++ (g x ++ Q) := by
  obtain ⟨l₁, l₂, rfl⟩ := List.append_of_mem h
  refine ⟨joinStr (l₁.map g), joinStr (l₂.map g), ?_⟩
  simp [List.map_append, joinStr_append, joinStr, strApp_assoc]

/-! ## Helper lemmas: first-occurrence replacement (strings.Replace count 1) -/

theorem replace1Aux_cons (old new : List Char) (c : Char) (t : List Char) :
    replace1Aux old new (c :: t) =
      if isPfx old (c :: t) then new ++ (c :: t).drop old.length
      else c :: replace1Aux old new t := rfl

theorem replace1_at (old new b : List Char) :
    ∀ (a : List Char), old ≠ [] →
      (∀ i, i < (a ++ (old ++ b)).length → isPfx old ((a ++ (old ++ b)).drop i) = true →
        i = a.length) →
      replace1Aux old new (a ++ (old ++ b)) = a ++ (new ++ b) := by
  intro a
  induction a with
  | nil =>
    intro hne huniq
    cases old with
    | nil => exact absurd rfl hne
    | cons o ot =>
      simp only [List.nil_append, List.cons_append]
      rw [replace1Aux_cons]
      rw [if_pos (by rw [← List.cons_append]; exact isPfx_self_append _ _)]
      rw [show o :: (ot ++ b) = (o :: ot) ++ b from rfl, List.drop_left]
  | cons c a' ih =>
    intro hne huniq
    have hnotpfx : ¬ isPfx old (c :: (a' ++ (old ++ b))) = true := by
      intro hp
      have h0 := huniq 0 (by simp) (by simpa using hp)
      simp at h0
    rw [List.cons_append, replace1Aux_cons, if_neg hnotpfx]
    rw [ih hne ?hu]
    · rfl
    case hu =>
      intro i hi hp
      have h1 := huniq (i + 1) (by simp only [List.cons_append, List.length_cons]; omega)
        (by simpa using hp)
      simp only [List.length_cons] at h1
      omega

/-! ## Claim theorems -/

/-- C1 counterexample: for the discovery order `[alpha, alpha, beta, beta,
alpha]` the generated output does NOT contain three section headers — the
collector keys sections on map membership of the package path, so the
reappearing `alpha` does not open a new section. -/
theorem C1_counterexample_two_headers :
    ¬ ((headerLinesOf (collectPgkFunc envC1 basePkgGoutil msC1)).length = 3) := by
  decide

set_option maxRecDepth 8192 in
/-- C1 (amended): a new section is opened exactly when a file's package key
has not occurred before (map membership), not when it differs from the
previous file's key; for keys `[A, A, B, B, A]` the output contains exactly
two section headers, A then B, each with its own opened-and-closed fence
pair, and the trailing A file's signature lines are appended into the still
open B section. -/
theorem C1_section_headers_first_occurrence :
    headerLinesOf (collectPgkFunc envC1 basePkgGoutil msC1) = ["### Alpha", "### Beta"] ∧
    countLineEq (collectPgkFunc envC1 basePkgGoutil msC1) "```go" = 2 ∧
    countLineEq (collectPgkFunc envC1 basePkgGoutil msC1) "```" = 2 ∧
    collectPgkFunc envC1 basePkgGoutil msC1 =
      "\n### Alpha\n\n> Package `github.com/gookit/goutil/alpha`\n\n```go\n```\n\n### Beta\n\n> Package `github.com/gookit/goutil/beta`\n\n```go\n// source at alpha/a3.go\nfunc Tail(x int)\n```\n" := by
  refine ⟨by decide, by decide, by decide, by decide⟩

/-- C2: on a file containing `func Foo(a int) string \x7b` and
`func bar(a int) \x7b`, the pattern matches exactly the `Foo` line; the
recorded line is trimmed of trailing brace and space characters, and the
lowercase `bar` declaration is excluded. -/
theorem C2_signature_extraction :
    sigMatches "func Foo(a int) string \x7b\nfunc bar(a int) \x7b\n" =
      ["func Foo(a int) string \x7b"] ∧
    (sigMatches "func Foo(a int) string \x7b\nfunc bar(a int) \x7b\n").map trimRightSet =
      ["func Foo(a int) string"] ∧
    fileLines envC2 "strutil/x.go" = "// source at strutil/x.go\nfunc Foo(a int) string\n" := by
  refine ⟨by decide, by decide, by decide⟩

/-- C8: for every environment, true-color support implies 256-color support
and 256-color support implies basic color support. -/
theorem C8_color_tier_monotonic (env : String → String) :
    (IsSupportTrueColor env = true → IsSupport256Color env = true) ∧
    (IsSupport256Color env = true → IsSupportColor env = true) := by
  constructor
  · intro h
    unfold IsSupport256Color
    cases hc : strContains (env "TERM") "256color" <;> simp [hc, h]
  · intro h
    by_cases h1 : strContains (env "TERM") "xterm" = true
    · simp [IsSupportColor, h1]
    · by_cases h2 : memStr (env "TERM") specialColorTerms = true
      · simp [IsSupportColor, h1, h2]
      · by_cases h3 : env "ConEmuANSI" = "ON"
        · simp [IsSupportColor, h1, h2, h3]
        · by_cases h4 : env "ANSICON" = ""
          · simp [IsSupportColor, h1, h2, h3, h4, h]
          · simp [IsSupportColor, h1, h2, h3, h4]

/-- C8 witness: in the concrete environment with only COLORTERM=truecolor,
the implications instantiate to give 256-color and basic support. -/
theorem C8_color_tier_monotonic_witness :
    IsSupport256Color envC8 = true ∧ IsSupportColor envC8 = true := by
  constructor
  · exact (C8_color_tier_monotonic envC8).1 (by decide)
  · exact (C8_color_tier_monotonic envC8).2 ((C8_color_tier_monotonic envC8).1 (by decide))

/-- C9: every offsetting and boundary helper of `TimeX` returns a newly
constructed value (its layout is freshly set to `DefaultLayout`) and leaves
the receiver's post-state — both its time and its layout — exactly as it
was. -/
theorem C9_timex_receiver_unchanged (t : TimeX) (n h mi s : Int) :
    (t.AddSeconds n).2 = t ∧ (t.AddMinutes n).2 = t ∧ (t.AddHour n).2 = t ∧
    (t.AddDay n).2 = t ∧ (t.DayAgo n).2 = t ∧ t.Yesterday.2 = t ∧ t.Tomorrow.2 = t ∧
    (t.DayAfter n).2 = t ∧ t.HourStart.2 = t ∧ t.HourEnd.2 = t ∧ t.DayStart.2 = t ∧
    t.DayEnd.2 = t ∧ (t.ChangeHMS h mi s).2 = t ∧
    (t.AddSeconds n).1.Layout = DefaultLayout ∧ (t.AddMinutes n).1.Layout = DefaultLayout ∧
    (t.AddHour n).1.Layout = DefaultLayout ∧ (t.AddDay n).1.Layout = DefaultLayout ∧
    (t.DayAgo n).1.Layout = DefaultLayout ∧ t.Yesterday.1.Layout = DefaultLayout ∧
    t.Tomorrow.1.Layout = DefaultLayout ∧ (t.DayAfter n).1.Layout = DefaultLayout ∧
    t.HourStart.1.Layout = DefaultLayout ∧ t.HourEnd.1.Layout = DefaultLayout ∧
    t.DayStart.1.Layout = DefaultLayout ∧ t.DayEnd.1.Layout = DefaultLayout ∧
    (t.ChangeHMS h mi s).1.Layout = DefaultLayout := by
  refine ⟨rfl, rfl, rfl, rfl, rfl, rfl, rfl, rfl, rfl, rfl, rfl, rfl, rfl,
    rfl, rfl, rfl, rfl, rfl, rfl, rfl, rfl, rfl, rfl, rfl, rfl, rfl⟩

/-- C3: for any input sequence of glob-shaped paths (each containing a
slash, as every `./*/*.go` match does), the loop is exactly the loop over
the kept files: it excludes every `_test.go` path, every `_windows.go`
path, and every path whose subdirectory is hidden, and includes all
others; an empty input yields an empty buffer with no error. -/
theorem C3_filtering_complete (env : GenEnv) (basePkg : String) (ms : List String)
    (hslash : ∀ f, f ∈ ms → f.data.contains '/' = true) :
    (∀ st, ms.foldl (collectStep env basePkg) st =
        (ms.filter keepFile).foldl (collectStepKept env basePkg) st) ∧
    (∀ f, f ∈ ms.filter keepFile ↔
        (f ∈ ms ∧ hasSuffix f "_test.go" = false ∧ hasSuffix f "_windows.go" = false ∧
          memStr (dirOf f) hiddenPkgs = false)) ∧
    collectPgkFunc env basePkg [] = "" := by
  refine ⟨fun st => foldl_collectStep_filter env basePkg ms st, ?_, ?_⟩
  · intro f
    constructor
    · intro hf
      obtain ⟨hmem, hkeep⟩ := List.mem_filter.mp hf
      simp only [keepFile, Bool.and_eq_true, Bool.not_eq_true'] at hkeep
      exact ⟨hmem, hkeep.1.1, hkeep.1.2, hkeep.2⟩
    · rintro ⟨hmem, h1, h2, h3⟩
      refine List.mem_filter.mpr ⟨hmem, ?_⟩
      simp [keepFile, h1, h2, h3]
  · show ("" : String) ++ "" = ""
    exact strApp_empty ""

/-- C3 witness: on a concrete list with one test file, one windows file,
one hidden-package file and one kept file, the loop equality, the
membership characterization and the empty-input case all instantiate. -/
theorem C3_filtering_complete_witness :
    (∀ st, msC3.foldl (collectStep envC3 basePkgGoutil) st =
        (msC3.filter keepFile).foldl (collectStepKept envC3 basePkgGoutil) st) ∧
    (∀ f, f ∈ msC3.filter keepFile ↔
        (f ∈ msC3 ∧ hasSuffix f "_test.go" = false ∧ hasSuffix f "_windows.go" = false ∧
          memStr (dirOf f) hiddenPkgs = false)) ∧
    collectPgkFunc envC3 basePkgGoutil [] = "" :=
  C3_filtering_complete envC3 basePkgGoutil msC3 (by decide)

/-- C5: when the loaded template contains the placeholder token exactly
once (it splits as `a ++ token ++ b` and every occurrence position is
`|a|`), the written output is the template with that one token occurrence
replaced by the assembled buffer, byte-identical elsewhere; with no
template content the buffer itself is written. -/
theorem C5_placeholder_substitution (tpl body : String) (a b : List Char)
    (hsplit : tpl.data = a ++ (placeholder.data ++ b))
    (huniq : ∀ i, i < tpl.data.length → isPfx placeholder.data (tpl.data.drop i) = true →
      i = a.length) :
    mainOutput tpl body = String.mk (a ++ (body.data ++ b)) ∧
    mainOutput "" body = body := by
  constructor
  · have hlen : tpl.data.length > 0 := by
      rw [hsplit]
      simp only [List.length_append]
      have h12 : placeholder.data.length = 12 := by decide
      omega
    unfold mainOutput
    rw [if_pos hlen]
    unfold strReplace1
    apply congrArg String.mk
    rw [hsplit]
    apply replace1_at
    · decide
    · intro i hi hp
      refine huniq i ?_ ?_
      · rw [hsplit]; exact hi
      · rw [hsplit]; exact hp
  · have h0 : ¬ (("" : String).data.length > 0) := by decide
    unfold mainOutput
    rw [if_neg h0]

/-- C5 witness: the template `A{{pgkFuncs}}B` (with one token occurrence)
and buffer `XY` produce `AXYB`; an empty template writes the buffer. -/
theorem C5_placeholder_substitution_witness :
    mainOutput "A\x7b\x7bpgkFuncs\x7d\x7dB" "XY" = String.mk (['A'] ++ (("XY" : String).data ++ ['B'])) ∧
    mainOutput "" "XY" = "XY" :=
  C5_placeholder_substitution "A\x7b\x7bpgkFuncs\x7d\x7dB" "XY" ['A'] ['B'] (by decide) (by decide)

/-- C6: with a non-default language configured, the language-suffixed
fragment filename is consulted first — if it has content, that content is
appended — and only when it yields nothing is the default-language (empty
suffix) filename consulted, whose content is then appended; this holds for
both the "start" and the "end" fragment naming templates. -/
theorem C6_fragment_fallback (env : GenEnv) (name c : String) (hlang : ¬ (env.lang = "en")) :
    (env.fsRead (env.tplDir ++ "/" ++ partDocTplS name ("." ++ env.lang)) = "" →
      env.fsRead (env.tplDir ++ "/" ++ partDocTplS name "") = c → 0 < c.data.length →
      bufWriteDoc env partDocTplS name = c ++ "\n") ∧
    (env.fsRead (env.tplDir ++ "/" ++ partDocTplE name ("." ++ env.lang)) = "" →
      env.fsRead (env.tplDir ++ "/" ++ partDocTplE name "") = c → 0 < c.data.length →
      bufWriteDoc env partDocTplE name = c ++ "\n") ∧
    (∀ c₁, env.fsRead (env.tplDir ++ "/" ++ partDocTplS name ("." ++ env.lang)) = c₁ →
      0 < c₁.data.length → bufWriteDoc env partDocTplS name = c₁ ++ "\n") ∧
    (∀ c₁, env.fsRead (env.tplDir ++ "/" ++ partDocTplE name ("." ++ env.lang)) = c₁ →
      0 < c₁.data.length → bufWriteDoc env partDocTplE name = c₁ ++ "\n") := by
  refine ⟨?_, ?_, ?_, ?_⟩
  · intro h1 h2 hc
    have hc' : 0 < c.length := hc
    simp [bufWriteDoc, doWriteDoc2buf, hlang, h1, h2, hc']
  · intro h1 h2 hc
    have hc' : 0 < c.length := hc
    simp [bufWriteDoc, doWriteDoc2buf, hlang, h1, h2, hc']
  · intro c₁ h1 hc
    have hc' : 0 < c₁.length := hc
    simp [bufWriteDoc, doWriteDoc2buf, hlang, h1, hc']
  · intro c₁ h1 hc
    have hc' : 0 < c₁.length := hc
    simp [bufWriteDoc, doWriteDoc2buf, hlang, h1, hc']

/-- C6 witness: with language zh-CN and only the default-language fragment
files present, both the "start" and "end" fragments fall back to the
default files' contents. -/
theorem C6_fragment_fallback_witness :
    bufWriteDoc envC6 partDocTplS "arr" = "START-DOC" ++ "\n" ∧
    bufWriteDoc envC6 partDocTplE "arrutil" = "END-DOC" ++ "\n" := by
  constructor
  · exact (C6_fragment_fallback envC6 "arr" "START-DOC" (by decide)).1
      (by decide) (by decide) (by decide)
  · exact (C6_fragment_fallback envC6 "arrutil" "END-DOC" (by decide)).2.1
      (by decide) (by decide) (by decide)

/-- C4: the collector's output equals the concatenation of the rendered
sections, where each rendered section (see `renderSeg` and `sectionOpen`)
opens its code fence once, after the heading, annotation and "start"
fragment and before any of the section's content, and closes it exactly
once, followed by the section's "end" fragment — the last section is
closed by the end-of-input flush, which the refinement shows is never
skipped while a section is open. -/
theorem C4_fence_open_close_invariant (env : GenEnv) (basePkg : String) (ms : List String) :
    collectPgkFunc env basePkg ms =
      joinStr ((segments basePkg (ms.filter keepFile)).map (renderSeg env basePkg)) :=
  collect_eq_render env basePkg ms

/-- C7: when neither the configured-language nor the default-language
fragment file exists for a section, fragment loading returns empty text for
both the "start" and "end" templates (no error — the function is total and
simply contributes nothing), and the generated buffer still contains the
section's heading line, its package-path annotation line, and every
collected, trimmed signature line of the section's files. -/
theorem C7_missing_fragment_not_error (env : GenEnv) (basePkg : String) (ms : List String)
    (f₀ : String) (rest : List String)
    (hseg : (f₀ :: rest) ∈ segments basePkg (ms.filter keepFile))
    (hS1 : env.fsRead (env.tplDir ++ "/" ++ partDocTplS (displayName (dirOf f₀))
        (if env.lang = "en" then "" else "." ++ env.lang)) = "")
    (hS2 : env.fsRead (env.tplDir ++ "/" ++ partDocTplS (displayName (dirOf f₀)) "") = "")
    (hE1 : env.fsRead (env.tplDir ++ "/" ++ partDocTplE (dirOf f₀)
        (if env.lang = "en" then "" else "." ++ env.lang)) = "")
    (hE2 : env.fsRead (env.tplDir ++ "/" ++ partDocTplE (dirOf f₀) "") = "") :
    bufWriteDoc env partDocTplS (displayName (dirOf f₀)) = "" ∧
    bufWriteDoc env partDocTplE (dirOf f₀) = "" ∧
    strContains (collectPgkFunc env basePkg ms)
      ("\n### " ++ upperFirst (displayName (dirOf f₀)) ++ "\n") = true ∧
    strContains (collectPgkFunc env basePkg ms)
      ("\n> Package `" ++ (basePkg ++ "/" ++ dirOf f₀) ++ "`\n\n") = true ∧
    (∀ f, f ∈ (f₀ :: rest) → ∀ l, l ∈ sigMatches (env.readFile f) →
      strContains (collectPgkFunc env basePkg ms) (trimRightSet l ++ "\n") = true) := by
  have hz : ("" : String).length = 0 := by decide
  have hz2 : ("" : String).data.length = 0 := by decide
  refine ⟨?_, ?_, ?_, ?_, ?_⟩
  · simp [bufWriteDoc, doWriteDoc2buf, hS1, hS2, hz, hz2]
  · simp [bufWriteDoc, doWriteDoc2buf, hE1, hE2, hz, hz2]
  · rw [collect_eq_render env basePkg ms]
    obtain ⟨P, Q, hPQ⟩ := joinStr_mem_split (renderSeg env basePkg) hseg
    rw [hPQ]
    apply strContains_appL
    apply strContains_appR
    simp only [renderSeg, sectionOpen]
    apply strContains_appR
    apply strContains_appR
    apply strContains_appR
    apply strContains_appR
    apply strContains_appR
    exact strContains_self _
  · rw [collect_eq_render env basePkg ms]
    obtain ⟨P, Q, hPQ⟩ := joinStr_mem_split (renderSeg env basePkg) hseg
    rw [hPQ]
    apply strContains_appL
    apply strContains_appR
    simp only [renderSeg, sectionOpen]
    apply strContains_appR
    apply strContains_appR
    apply strContains_appR
    apply strContains_appR
    apply strContains_appL
    exact strContains_self _
  · intro f hf l hl
    rw [collect_eq_render env basePkg ms]
    obtain ⟨P, Q, hPQ⟩ := joinStr_mem_split (renderSeg env basePkg) hseg
    rw [hPQ]
    apply strContains_appL
    apply strContains_appR
    simp only [renderSeg]
    apply strContains_appR
    apply strContains_appL
    obtain ⟨P2, Q2, h2⟩ := joinStr_mem_split (fileLines env) hf
    rw [h2]
    apply strContains_appL
    apply strContains_appR
    have hne : (sigMatches (env.readFile f)).isEmpty = false :=
      isEmpty_false_of_ne (List.ne_nil_of_mem hl)
    simp only [fileLines, hne, Bool.false_eq_true, if_false]
    apply strContains_appL
    obtain ⟨P3, Q3, h3⟩ :=
      joinStr_mem_split (fun l => trimRightSet l ++ "\n") hl
    rw [h3]
    apply strContains_appL
    exact strContains_self_pre _ _

/-- C7 witness: with no fragment files at all, the single maputil section
still carries its heading line, its package annotation line and the
collected trimmed signature, and both fragment lookups return empty text. -/
theorem C7_missing_fragment_not_error_witness :
    bufWriteDoc envC7 partDocTplS (displayName (dirOf "maputil/m.go")) = "" ∧
    bufWriteDoc envC7 partDocTplE (dirOf "maputil/m.go") = "" ∧
    strContains (collectPgkFunc envC7 basePkgGoutil msC7)
      ("\n### " ++ upperFirst (displayName (dirOf "maputil/m.go")) ++ "\n") = true ∧
    strContains (collectPgkFunc envC7 basePkgGoutil msC7)
      ("\n> Package `" ++ (basePkgGoutil ++ "/" ++ dirOf "maputil/m.go") ++ "`\n\n") = true ∧
    (∀ f, f ∈ ("maputil/m.go" :: ([] : List String)) →
      ∀ l, l ∈ sigMatches (envC7.readFile f) →
        strContains (collectPgkFunc envC7 basePkgGoutil msC7) (trimRightSet l ++ "\n") = true) :=
  C7_missing_fragment_not_error envC7 basePkgGoutil msC7 "maputil/m.go" []
    (by decide) (by decide) (by decide) (by decide) (by decide)

/-- C10: the pattern `func [A-Z]\w+\(.*\).*` requires at least two
characters in the function name — every extracted match starts with
`"func "`, an uppercase letter and at least one more word character — so an
exported function with a single-letter name, such as `func F(a int)`, is
never extracted. -/
theorem C10_min_two_char_names :
    (∀ (text m : String), m ∈ sigMatches text → sigShape m) ∧
    sigMatches "func F(a int) \x7b\n" = [] := by
  constructor
  · intro text m hm
    simp only [sigMatches, List.mem_map] at hm
    obtain ⟨l, hl, rfl⟩ := hm
    obtain ⟨c5, c6, t, hshape, hc5, hc6⟩ := findAllAux_shape _ _ _ hl
    exact ⟨c5, c6, t, hshape, hc5, hc6⟩
  · decide

/-- C10 witness: the two-letter exported name `Foo` is matched, and its
match has the required shape. -/
theorem C10_min_two_char_names_witness :
    sigShape "func Foo(a) \x7b" :=
  C10_min_two_char_names.1 "func Foo(a) \x7b" "func Foo(a) \x7b" (by decide)

